import Mathlib

/-!
Shallow embedding of the office-seating solver of this repository.

The repository holds two near-identical implementations of `solve_seating`:
`src/main.py` (FastAPI service, lines 87-220) and `src/app.py` (Streamlit
app, lines 16-88).  Both build the same CP-SAT model; they differ in
configuration plumbing and in how the raw solution is decoded.

Embedding choices:
* The CP-SAT solver is external; a solve outcome is modelled as
  `Option Solution` (`some s` = status OPTIMAL/FEASIBLE with valuation `s`,
  `none` = no feasible solution within the budget).  The solver's contract
  is that a returned valuation satisfies every constraint the model added;
  that conjunction is transcribed below (`MainFeasible`, `AppFeasible`).
* `random.shuffle` of the id column is an external deterministic pre-step;
  the shuffled id list `es` is a parameter of the embedded solve.
* main.py writes no table on two paths — the infeasible print branch and
  the pandas `KeyError` raised when an empty employee list makes
  `sort_values` run on a columnless empty frame; `mainSolveSeating`
  returns `none` on both.
* Python floats appear only as `MAX_DEPT_PERCENT = 0.6`, used once in
  `int(0.6 * n)`; this is modelled exactly by the rational `3/5`, whose
  floor agrees with the float computation for every roster size.
* Department strings compare by code points (`List Char` lexicographic),
  as pandas compares Python strings.
-/

/-- Input roster row of the employees CSV: columns `ID` and `Department`
(main.py line 89, app.py line 17). -/
structure Emp where
  id : Nat
  dept : String
  deriving DecidableEq, Repr

/-- Floor configuration `FLOORS = {1: 50, 2: 48}` of main.py line 81
(and app.py line 13), floor id paired with seat capacity, in dict
insertion order. -/
def FLOORS : List (Nat × Nat) := [(1, 50), (2, 48)]

/-- Department cap fraction `MAX_DEPT_PERCENT = 0.6` of main.py line 82
(and app.py line 12), modelled as the exact rational. -/
def MAX_DEPT_PERCENT : ℚ := 3 / 5

/-- Table size `SEATS_PER_TABLE = 6` of main.py line 83. -/
def SEATS_PER_TABLE : Nat := 6

/-- Python `int(max_dept_percent * len(members))` (main.py line 149,
app.py line 47): the product truncated toward zero; for the nonnegative
fractions used here truncation equals the floor. -/
def maxOnSite (p : ℚ) (n : Nat) : Nat := (⌊p * (n : ℚ)⌋).toNat

/-- Seat numbers `range(1, cap + 1)` of a floor with `cap` seats. -/
def seats (cap : Nat) : List Nat := List.range' 1 cap

/-- Valuation of the CP-SAT decision variables of the model
(main.py lines 104-126 and 166-168, app.py lines 24-28 and 57):
`emp_floor`, `emp_offsite`, `emp_seat`, `emp_seat_bool`, `on_site`,
each keyed the way the Python dicts are keyed. -/
structure Solution where
  empFloor : Nat → Nat → Bool
  empOffsite : Nat → Bool
  empSeat : Nat → Nat → Nat
  empSeatBool : Nat → Nat → Nat → Bool
  onSite : Nat → Bool

/-- Grouping `df.groupby('Department')['ID'].apply(list)` (main.py line 97,
app.py line 21): member ids of department `d`, in roster order. -/
def deptMembers (r : List Emp) (d : String) : List Nat :=
  (r.filter fun x => x.dept == d).map Emp.id

/-- Department labels the groupby iterates over.  Iterating the raw label
column repeats identical constraints for repeated labels, leaving the
constraint set unchanged. -/
def deptLabels (r : List Emp) : List String := r.map Emp.dept

/-- Conjunction of every constraint `solve_seating` of main.py adds, in
source order: `emp_seat` variable domain (line 117), exactly-one placement
(lines 129-130), seat-number linking (lines 133-136), floor capacity
(lines 139-140), seat exclusivity / `AddAtMostOne` (lines 143-145),
department on-site cap (lines 148-152), pairwise team cohesion
(lines 155-161), and the on-site indicator linking (lines 166-169).
`r` is the roster, `es` the shuffled id list, `s` the solver valuation. -/
abbrev MainFeasible (r : List Emp) (es : List Nat) (s : Solution) : Prop :=
  (∀ e ∈ es, ∀ f ∈ FLOORS, s.empSeat e f.1 ≤ f.2)
  ∧ (∀ e ∈ es, (FLOORS.map fun f => (s.empFloor e f.1).toNat).sum + (s.empOffsite e).toNat = 1)
  ∧ (∀ e ∈ es, ∀ f ∈ FLOORS,
      s.empSeat e f.1 = ((seats f.2).map fun n => n * (s.empSeatBool e f.1 n).toNat).sum
      ∧ ((seats f.2).map fun n => (s.empSeatBool e f.1 n).toNat).sum = (s.empFloor e f.1).toNat)
  ∧ (∀ f ∈ FLOORS, (es.map fun e => (s.empFloor e f.1).toNat).sum ≤ f.2)
  ∧ (∀ f ∈ FLOORS, ∀ n ∈ seats f.2, (es.map fun e => (s.empSeatBool e f.1 n).toNat).sum ≤ 1)
  ∧ (∀ d ∈ deptLabels r,
      ((deptMembers r d).map fun e => (FLOORS.map fun f => (s.empFloor e f.1).toNat).sum).sum
        ≤ maxOnSite MAX_DEPT_PERCENT (deptMembers r d).length)
  ∧ (∀ d ∈ deptLabels r, ∀ f ∈ FLOORS, ∀ e ∈ deptMembers r d, ∀ m ∈ deptMembers r d,
      m ≠ e → (s.empFloor e f.1).toNat ≤ (s.empOffsite m).toNat + (s.empFloor m f.1).toNat)
  ∧ (∀ e ∈ es, (s.onSite e).toNat = (FLOORS.map fun f => (s.empFloor e f.1).toNat).sum)

/-- Objective of main.py lines 172-175:
`sum(on_site) * 1000 + sum(emp_floor over employees and floors)`. -/
def mainObjective (es : List Nat) (s : Solution) : Nat :=
  (es.map fun e => (s.onSite e).toNat).sum * 1000
    + (es.map fun e => (FLOORS.map fun f => (s.empFloor e f.1).toNat).sum).sum

/-- Conjunction of every constraint `solve_seating` of app.py adds, in
source order: `emp_seat` variable domain (line 26), exactly-one placement
(lines 30-31), seat-number linking (lines 33-37), floor capacity
(lines 39-40), seat exclusivity / `AddAtMostOne` (lines 42-44),
department on-site cap (lines 46-48), pairwise team cohesion
(lines 50-55), and the on-site indicator linking (lines 57-59).
Unlike main.py, the floor table `fl` and the fraction `p` are parameters. -/
abbrev AppFeasible (fl : List (Nat × Nat)) (p : ℚ) (r : List Emp) (es : List Nat)
    (s : Solution) : Prop :=
  (∀ e ∈ es, ∀ f ∈ fl, s.empSeat e f.1 ≤ f.2)
  ∧ (∀ e ∈ es, (fl.map fun f => (s.empFloor e f.1).toNat).sum + (s.empOffsite e).toNat = 1)
  ∧ (∀ e ∈ es, ∀ f ∈ fl,
      s.empSeat e f.1 = ((seats f.2).map fun n => n * (s.empSeatBool e f.1 n).toNat).sum
      ∧ ((seats f.2).map fun n => (s.empSeatBool e f.1 n).toNat).sum = (s.empFloor e f.1).toNat)
  ∧ (∀ f ∈ fl, (es.map fun e => (s.empFloor e f.1).toNat).sum ≤ f.2)
  ∧ (∀ f ∈ fl, ∀ n ∈ seats f.2, (es.map fun e => (s.empSeatBool e f.1 n).toNat).sum ≤ 1)
  ∧ (∀ d ∈ deptLabels r,
      ((deptMembers r d).map fun e => (fl.map fun f => (s.empFloor e f.1).toNat).sum).sum
        ≤ maxOnSite p (deptMembers r d).length)
  ∧ (∀ d ∈ deptLabels r, ∀ f ∈ fl, ∀ e ∈ deptMembers r d, ∀ m ∈ deptMembers r d,
      m ≠ e → (s.empFloor e f.1).toNat ≤ (s.empOffsite m).toNat + (s.empFloor m f.1).toNat)
  ∧ (∀ e ∈ es, (s.onSite e).toNat = (fl.map fun f => (s.empFloor e f.1).toNat).sum)

/-- Objective of app.py lines 61-62, identical shape to main.py's but over
the floor parameter `fl`. -/
def appObjective (fl : List (Nat × Nat)) (es : List Nat) (s : Solution) : Nat :=
  (es.map fun e => (s.onSite e).toNat).sum * 1000
    + (es.map fun e => (fl.map fun f => (s.empFloor e f.1).toNat).sum).sum

/-- Value of the `Assigned_Floor` column: a floor id, the literal
"Offsite", or Python `None` (the initial value `assigned_floor = None`
of main.py line 191, never overwritten when no floor variable is set). -/
inductive FloorAssign where
  | offsite
  | onFloor (f : Nat)
  | unassigned
  deriving DecidableEq, Repr

/-- Output row of main.py lines 207-213:
`ID`, `Department`, `Assigned_Floor`, `Assigned_Table`, `Assigned_Seat`. -/
structure Row where
  id : Nat
  dept : String
  assignedFloor : FloorAssign
  assignedTable : Option Int
  assignedSeat : Option Nat
  deriving DecidableEq, Repr

/-- Lookup `df.loc[df['ID'] == e, 'Department'].values[0]`
(main.py line 209, app.py line 84): department of the first roster row
with id `e`; "" models the out-of-roster error case, which decoded
employees never hit. -/
def lookupDept (r : List Emp) (e : Nat) : String :=
  ((r.find? fun x => x.id == e).map Emp.dept).getD ""

/-- Python `((seat_num - 1) // SEATS_PER_TABLE) + 1` of main.py line 204,
with Python's floor division modelled by `Int.fdiv`. -/
def tableIndex (seatNum : Nat) : Int :=
  ((seatNum : Int) - 1).fdiv (SEATS_PER_TABLE : Int) + 1

/-- Decode of one employee, main.py lines 190-213: offsite employees get
floor "Offsite" and no seat or table; otherwise the first floor of
`FLOORS` whose `emp_floor` value is 1 supplies floor, seat and table. -/
def mainDecodeRow (r : List Emp) (s : Solution) (e : Nat) : Row :=
  if s.empOffsite e then
    { id := e, dept := lookupDept r e, assignedFloor := .offsite,
      assignedTable := none, assignedSeat := none }
  else
    match FLOORS.find? fun f => s.empFloor e f.1 with
    | some f =>
        { id := e, dept := lookupDept r e, assignedFloor := .onFloor f.1,
          assignedTable := some (tableIndex (s.empSeat e f.1)),
          assignedSeat := some (s.empSeat e f.1) }
    | none =>
        { id := e, dept := lookupDept r e, assignedFloor := .unassigned,
          assignedTable := none, assignedSeat := none }

/-- Row order of `sort_values(['Department', 'ID'])` (main.py line 216):
department first (code-point order on the label, as pandas compares
Python strings), then id. -/
def rowLE (a b : Row) : Prop :=
  a.dept.data < b.dept.data ∨ (a.dept = b.dept ∧ a.id ≤ b.id)

instance : DecidableRel rowLE := fun a b =>
  inferInstanceAs (Decidable (a.dept.data < b.dept.data ∨ (a.dept = b.dept ∧ a.id ≤ b.id)))

/-- Decoded and sorted output table of main.py lines 186-216 for a
feasible valuation `s`. -/
def mainSolveRows (r : List Emp) (es : List Nat) (s : Solution) : List Row :=
  List.insertionSort rowLE (es.map (mainDecodeRow r s))

/-- End-to-end result of main.py's `solve_seating` as a function of the
solver outcome: a feasible outcome is decoded, sorted and written as the
assignment table (lines 186-218); an infeasible outcome only prints
"No feasible solution found." and writes no table (lines 219-220).
With an empty employee list the feasible branch writes no table either:
`seating_plan` stays `[]`, `pd.DataFrame([])` has no columns, and
`sort_values(['Department', 'ID'])` at line 216 raises a pandas
`KeyError` before the write — both no-table paths are `none`. -/
def mainSolveSeating (r : List Emp) (es : List Nat) (outcome : Option Solution) :
    Option (List Row) :=
  match outcome with
  | some s => if es.isEmpty then none else some (mainSolveRows r es s)
  | none => none

/-- Output row of app.py lines 82-87: `ID`, `Department`, `Assigned_Floor`,
`Assigned_Seat`; app.py emits no `Assigned_Table` column. -/
structure AppRow where
  id : Nat
  dept : String
  assignedFloor : FloorAssign
  assignedSeat : Option Nat
  deriving DecidableEq, Repr

/-- Order "Department first, then ID" on app.py rows, used only to state
sortedness of app.py's output. -/
def appRowLE (a b : AppRow) : Prop :=
  a.dept.data < b.dept.data ∨ (a.dept = b.dept ∧ a.id ≤ b.id)

instance : DecidableRel appRowLE := fun a b =>
  inferInstanceAs (Decidable (a.dept.data < b.dept.data ∨ (a.dept = b.dept ∧ a.id ≤ b.id)))

/-- Decode of one employee in app.py lines 71-87; same branch structure as
main.py's decode but over the floor parameter and without a table. -/
def appDecodeRow (fl : List (Nat × Nat)) (r : List Emp) (s : Solution) (e : Nat) : AppRow :=
  if s.empOffsite e then
    { id := e, dept := lookupDept r e, assignedFloor := .offsite, assignedSeat := none }
  else
    match fl.find? fun f => s.empFloor e f.1 with
    | some f =>
        { id := e, dept := lookupDept r e, assignedFloor := .onFloor f.1,
          assignedSeat := some (s.empSeat e f.1) }
    | none =>
        { id := e, dept := lookupDept r e, assignedFloor := .unassigned, assignedSeat := none }

/-- End-to-end result of app.py's `solve_seating` (lines 69-88): rows in
solve order for a feasible outcome, and the unconditional
`pd.DataFrame(seating_plan)` return means an infeasible outcome yields an
empty table, with no error signalled. -/
def appSolveSeating (fl : List (Nat × Nat)) (r : List Emp) (es : List Nat)
    (outcome : Option Solution) : List AppRow :=
  match outcome with
  | some s => es.map (appDecodeRow fl r s)
  | none => []

/-! Helper lemmas about sums of boolean indicators, `find?`, and the
roster lookup. -/

/-- A sum of boolean indicators vanishes exactly when every indicator is
false. -/
theorem sum_toNat_eq_zero {α : Type} (l : List α) (b : α → Bool) :
    (l.map fun x => (b x).toNat).sum = 0 ↔ ∀ x ∈ l, b x = false := by
  rw [List.sum_eq_zero_iff]
  constructor
  · intro h x hx
    have hz := h ((b x).toNat) (List.mem_map.2 ⟨x, hx, rfl⟩)
    cases hb : b x
    · rfl
    · rw [hb] at hz; simp at hz
  · intro h y hy
    rcases List.mem_map.1 hy with ⟨x, hx, rfl⟩
    rw [h x hx]
    rfl

/-- A member with a true indicator forces the indicator sum to be at
least one. -/
theorem one_le_sum_toNat {α : Type} {l : List α} {b : α → Bool} {x : α}
    (hx : x ∈ l) (hb : b x = true) : 1 ≤ (l.map fun y => (b y).toNat).sum := by
  induction l with
  | nil => cases hx
  | cons a t ih =>
    simp only [List.map_cons, List.sum_cons]
    rcases List.mem_cons.1 hx with rfl | hx'
    · rw [hb]; simp
    · have := ih hx'
      omega

/-- An indicator sum equal to one picks out a single element: it is the
unique member with a true indicator, and it evaluates any weighted
indicator sum. -/
theorem sum_toNat_one {α : Type} {l : List α} {b : α → Bool}
    (h : (l.map fun x => (b x).toNat).sum = 1) :
    ∃ x ∈ l, b x = true ∧ (∀ y ∈ l, b y = true → y = x) ∧
      ∀ g : α → Nat, (l.map fun y => g y * (b y).toNat).sum = g x := by
  induction l with
  | nil => simp at h
  | cons a t ih =>
    simp only [List.map_cons, List.sum_cons] at h
    cases hb : b a
    · rw [hb] at h
      simp only [Bool.toNat_false, Nat.zero_add] at h
      rcases ih h with ⟨x, hxl, hbx, huniq, hsum⟩
      refine ⟨x, List.mem_cons_of_mem _ hxl, hbx, ?_, ?_⟩
      · intro y hy hby
        rcases List.mem_cons.1 hy with rfl | hy'
        · rw [hby] at hb; cases hb
        · exact huniq y hy' hby
      · intro g
        simp only [List.map_cons, List.sum_cons, hb, Bool.toNat_false, Nat.mul_zero,
          Nat.zero_add]
        exact hsum g
    · rw [hb] at h
      simp only [Bool.toNat_true] at h
      have ht : (t.map fun x => (b x).toNat).sum = 0 := by omega
      have hall := (sum_toNat_eq_zero t b).1 ht
      refine ⟨a, List.mem_cons_self a t, hb, ?_, ?_⟩
      · intro y hy hby
        rcases List.mem_cons.1 hy with rfl | hy'
        · rfl
        · rw [hall y hy'] at hby; cases hby
      · intro g
        simp only [List.map_cons, List.sum_cons, hb, Bool.toNat_true, Nat.mul_one]
        have hz : (t.map fun y => g y * (b y).toNat).sum = 0 := by
          rw [List.sum_eq_zero_iff]
          intro z hz
          rcases List.mem_map.1 hz with ⟨w, hw, rfl⟩
          rw [hall w hw]
          rfl
        omega

/-- Two distinct members with true indicators force the indicator sum to
be at least two. -/
theorem two_le_sum_toNat {α : Type} {l : List α} {b : α → Bool} {x y : α}
    (hx : x ∈ l) (hy : y ∈ l) (hxy : x ≠ y) (hbx : b x = true) (hby : b y = true) :
    2 ≤ (l.map fun z => (b z).toNat).sum := by
  induction l with
  | nil => cases hx
  | cons a t ih =>
    simp only [List.map_cons, List.sum_cons]
    rcases List.mem_cons.1 hx with rfl | hx'
    · rcases List.mem_cons.1 hy with rfl | hy'
      · exact absurd rfl hxy
      · have := one_le_sum_toNat hy' hby
        rw [hbx]
        simp only [Bool.toNat_true]
        omega
    · rcases List.mem_cons.1 hy with rfl | hy'
      · have := one_le_sum_toNat hx' hbx
        rw [hby]
        simp only [Bool.toNat_true]
        omega
      · have := ih hx' hy'
        omega

/-- Counting members that satisfy a predicate is bounded by any weight
sum whose weights are at least one on those members. -/
theorem countP_le_sum {α : Type} (l : List α) (p : α → Bool) (g : α → Nat)
    (h : ∀ x ∈ l, p x = true → 1 ≤ g x) :
    l.countP p ≤ (l.map g).sum := by
  induction l with
  | nil => simp
  | cons a t ih =>
    rw [List.countP_cons]
    simp only [List.map_cons, List.sum_cons]
    have ht := ih fun x hx hp => h x (List.mem_cons_of_mem _ hx) hp
    by_cases hp : p a = true
    · have h1 := h a (List.mem_cons_self a t) hp
      rw [if_pos hp]
      omega
    · rw [if_neg hp]
      omega

/-- When the predicate holds at a unique member, `find?` returns it. -/
theorem find_eq_some_of_unique {α : Type} {l : List α} {p : α → Bool} {x : α}
    (hx : x ∈ l) (hpx : p x = true) (huniq : ∀ y ∈ l, p y = true → y = x) :
    l.find? p = some x := by
  induction l with
  | nil => cases hx
  | cons a t ih =>
    cases hpa : p a with
    | true =>
      have hax : a = x := huniq a (List.mem_cons_self a t) hpa
      subst hax
      simp [List.find?_cons, hpa]
    | false =>
      have hx' : x ∈ t := by
        rcases List.mem_cons.1 hx with rfl | hmem
        · rw [hpx] at hpa; cases hpa
        · exact hmem
      simp only [List.find?_cons, hpa]
      exact ih hx' fun y hy hpy => huniq y (List.mem_cons_of_mem _ hy) hpy

/-- Seat numbers of a floor are exactly `1..cap`. -/
theorem mem_seats {cap n : Nat} : n ∈ seats cap ↔ 1 ≤ n ∧ n ≤ cap := by
  rw [seats, List.mem_range'_1]
  omega

/-- A roster whose id column has no duplicates determines each row by its
id. -/
theorem id_injOn_of_nodup {r : List Emp} (h : (r.map Emp.id).Nodup) :
    ∀ x ∈ r, ∀ y ∈ r, x.id = y.id → x = y := by
  induction r with
  | nil => intro x hx; cases hx
  | cons a t ih =>
    rw [List.map_cons, List.nodup_cons] at h
    obtain ⟨ha, ht⟩ := h
    intro x hx y hy hxy
    rcases List.mem_cons.1 hx with rfl | hx' <;> rcases List.mem_cons.1 hy with rfl | hy'
    · rfl
    · exact absurd (by rw [hxy]; exact List.mem_map_of_mem Emp.id hy') ha
    · exact absurd (by rw [← hxy]; exact List.mem_map_of_mem Emp.id hx') ha
    · exact ih ht x hx' y hy' hxy

/-- On a duplicate-free roster the department lookup of main.py line 209
returns the department of the row with the looked-up id. -/
theorem lookupDept_eq {r : List Emp} (hnd : (r.map Emp.id).Nodup) {x : Emp} (hx : x ∈ r) :
    lookupDept r x.id = x.dept := by
  have hfind : (r.find? fun y => y.id == x.id) = some x := by
    apply find_eq_some_of_unique hx (by simp)
    intro y hy hpy
    exact id_injOn_of_nodup hnd y hy x hx (by simpa using hpy)
  simp [lookupDept, hfind]

/-- Distinct entries of `FLOORS` have distinct floor ids. -/
theorem floors_key_inj : ∀ p ∈ FLOORS, ∀ q ∈ FLOORS, p.1 = q.1 → p = q := by decide

/-- Every branch of the decode copies the employee id into the row. -/
theorem mainDecodeRow_id (r : List Emp) (s : Solution) (e : Nat) :
    (mainDecodeRow r s e).id = e := by
  unfold mainDecodeRow
  split
  · rfl
  · split <;> rfl

/-- Every branch of the decode fills the department by roster lookup. -/
theorem mainDecodeRow_dept (r : List Emp) (s : Solution) (e : Nat) :
    (mainDecodeRow r s e).dept = lookupDept r e := by
  unfold mainDecodeRow
  split
  · rfl
  · split <;> rfl

instance : IsTrans Row rowLE := ⟨by
  intro a b c hab hbc
  rcases hab with h1 | ⟨h1, h1'⟩ <;> rcases hbc with h2 | ⟨h2, h2'⟩
  · exact Or.inl (lt_trans h1 h2)
  · exact Or.inl (by rw [← h2]; exact h1)
  · exact Or.inl (by rw [h1]; exact h2)
  · exact Or.inr ⟨h1.trans h2, le_trans h1' h2'⟩⟩

instance : IsTotal Row rowLE := ⟨by
  intro a b
  rcases lt_trichotomy a.dept.data b.dept.data with h | h | h
  · exact Or.inl (Or.inl h)
  · have hd : a.dept = b.dept := congrArg String.mk h
    rcases Nat.le_total a.id b.id with h' | h'
    · exact Or.inl (Or.inr ⟨hd, h'⟩)
    · exact Or.inr (Or.inr ⟨hd.symm, h'⟩)
  · exact Or.inr (Or.inl h)⟩

/-- Floor-division bridge: Python's `//` on the nonnegative values the
decode feeds it agrees with natural division. -/
theorem fdiv_ofNat (m n : Nat) : (Int.ofNat m).fdiv (Int.ofNat n) = Int.ofNat (m / n) := by
  cases m with
  | zero => simp [Int.fdiv]
  | succ k => rfl

/-- Table numbers of seated employees: for real seat numbers (at least 1)
the Python computation equals the natural one. -/
theorem tableIndex_eq {n : Nat} (h : 1 ≤ n) :
    tableIndex n = (((n - 1) / SEATS_PER_TABLE : Nat) : Int) + 1 := by
  unfold tableIndex
  have hcast : (n : Int) - 1 = ((n - 1 : Nat) : Int) := by omega
  rw [hcast]
  have : ((n - 1 : Nat) : Int) = Int.ofNat (n - 1) := rfl
  rw [this]
  have h6 : (SEATS_PER_TABLE : Int) = Int.ofNat SEATS_PER_TABLE := rfl
  rw [h6, fdiv_ofNat]
  rfl

/-- The department cap constant evaluates on any department size without
rational arithmetic. -/
theorem maxOnSite_three_fifths (n : Nat) : maxOnSite MAX_DEPT_PERCENT n = 3 * n / 5 := by
  unfold maxOnSite MAX_DEPT_PERCENT
  have h : (3 : ℚ) / 5 * (n : ℚ) = ((3 * n : ℕ) : ℚ) / ((5 : ℕ) : ℚ) := by
    push_cast
    ring
  rw [h, Rat.floor_natCast_div_natCast]
  omega

/-- Decode of a non-offsite employee of a feasible valuation: there is a
unique floor entry with a true floor variable, `find?` returns it, and
the row records that floor together with the seat value. -/
theorem mainDecode_onFloor {r : List Emp} {es : List Nat} {s : Solution}
    (hf : MainFeasible r es s) {e : Nat} (he : e ∈ es) (hoff : s.empOffsite e = false) :
    ∃ fp ∈ FLOORS, s.empFloor e fp.1 = true
      ∧ (∀ q ∈ FLOORS, s.empFloor e q.1 = true → q = fp)
      ∧ mainDecodeRow r s e =
        { id := e, dept := lookupDept r e, assignedFloor := .onFloor fp.1,
          assignedTable := some (tableIndex (s.empSeat e fp.1)),
          assignedSeat := some (s.empSeat e fp.1) } := by
  obtain ⟨hdom, hone, hlink, hcap, hexcl, hdept, hcoh, hons⟩ := hf
  have h1 := hone e he
  rw [hoff] at h1
  simp only [Bool.toNat_false, Nat.add_zero] at h1
  obtain ⟨fp, hfpmem, hfp, huniq, -⟩ := sum_toNat_one h1
  have hfind : (FLOORS.find? fun f => s.empFloor e f.1) = some fp :=
    find_eq_some_of_unique hfpmem hfp huniq
  refine ⟨fp, hfpmem, hfp, huniq, ?_⟩
  unfold mainDecodeRow
  rw [hoff]
  simp [hfind]

/-- Decode of an offsite employee. -/
theorem mainDecode_offsite {r : List Emp} {s : Solution} {e : Nat}
    (hoff : s.empOffsite e = true) :
    mainDecodeRow r s e =
      { id := e, dept := lookupDept r e, assignedFloor := .offsite,
        assignedTable := none, assignedSeat := none } := by
  unfold mainDecodeRow
  rw [hoff]
  rfl

/-- Seat value of an employee with a true floor variable on a feasible
valuation: it lies in `1..cap` and its seat indicator is set. -/
theorem mainSeat_spec {r : List Emp} {es : List Nat} {s : Solution}
    (hf : MainFeasible r es s) {e : Nat} (he : e ∈ es) {fp : Nat × Nat}
    (hfpmem : fp ∈ FLOORS) (hfp : s.empFloor e fp.1 = true) :
    1 ≤ s.empSeat e fp.1 ∧ s.empSeat e fp.1 ≤ fp.2
      ∧ s.empSeatBool e fp.1 (s.empSeat e fp.1) = true := by
  obtain ⟨hdom, hone, hlink, hcap, hexcl, hdept, hcoh, hons⟩ := hf
  obtain ⟨hval, hcount⟩ := hlink e he fp hfpmem
  rw [hfp] at hcount
  simp only [Bool.toNat_true] at hcount
  obtain ⟨n, hnmem, hbn, huniq, hsum⟩ := sum_toNat_one hcount
  have hval' : s.empSeat e fp.1 = n := by
    rw [hval]
    simpa using hsum fun m => m
  rcases mem_seats.1 hnmem with ⟨h1n, hncap⟩
  refine ⟨?_, ?_, ?_⟩
  · rw [hval']; exact h1n
  · rw [hval']; exact hncap
  · rw [hval']; exact hbn

/-- Rows of the sorted output are exactly the decoded rows of the
shuffled id list. -/
theorem mem_mainSolveRows {r : List Emp} {es : List Nat} {s : Solution} {row : Row} :
    row ∈ mainSolveRows r es s ↔ ∃ e ∈ es, mainDecodeRow r s e = row := by
  unfold mainSolveRows
  rw [(List.perm_insertionSort rowLE _).mem_iff, List.mem_map]

/-! Concrete instances used to exercise the theorems. -/

/-- Two-employee roster, both in department "A". -/
def rosterA : List Emp := [⟨1, "A"⟩, ⟨2, "A"⟩]

/-- Roster whose (Department, ID) order disagrees with its id order. -/
def rosterB : List Emp := [⟨1, "B"⟩, ⟨2, "A"⟩]

/-- Roster with a duplicated employee id — invalid input per the spec. -/
def rosterDup : List Emp := [⟨1, "A"⟩, ⟨1, "A"⟩]

/-- Valuation seating employee 1 on floor 1, seat 1, with employee 2
offsite. -/
def solA : Solution where
  empFloor := fun e f => e == 1 && f == 1
  empOffsite := fun e => e == 2
  empSeat := fun e f => if e == 1 && f == 1 then 1 else 0
  empSeatBool := fun e f n => e == 1 && f == 1 && n == 1
  onSite := fun e => e == 1

/-- Valuation with every employee offsite. -/
def solOff : Solution where
  empFloor := fun _ _ => false
  empOffsite := fun _ => true
  empSeat := fun _ _ => 0
  empSeatBool := fun _ _ _ => false
  onSite := fun _ => false

/-- The concrete seating valuation satisfies every model constraint for
`rosterA` in solve order `[1, 2]`. -/
theorem solA_feasible : MainFeasible rosterA [1, 2] solA := by
  refine ⟨?_, ?_, ?_, ?_, ?_, ?_, ?_, ?_⟩
  · decide
  · decide
  · decide
  · decide
  · decide
  · intro d hd
    simp only [maxOnSite_three_fifths]
    revert hd
    revert d
    decide
  · decide
  · decide

/-- The all-offsite valuation satisfies every model constraint for
`rosterDup` in solve order `[1, 1]`. -/
theorem solOff_feasible_dup : MainFeasible rosterDup [1, 1] solOff := by
  refine ⟨?_, ?_, ?_, ?_, ?_, ?_, ?_, ?_⟩
  · decide
  · decide
  · decide
  · decide
  · decide
  · intro d hd
    simp only [maxOnSite_three_fifths]
    revert hd
    revert d
    decide
  · decide
  · decide

/-- The all-offsite valuation satisfies every app.py model constraint for
`rosterB` in solve order `[1, 2]` at main.py's configuration. -/
theorem solOff_app_feasible_b : AppFeasible FLOORS MAX_DEPT_PERCENT rosterB [1, 2] solOff := by
  refine ⟨?_, ?_, ?_, ?_, ?_, ?_, ?_, ?_⟩
  · decide
  · decide
  · decide
  · decide
  · decide
  · intro d hd
    simp only [maxOnSite_three_fifths]
    revert hd
    revert d
    decide
  · decide
  · decide

/-- C5 (amended): when the solver reports no feasible solution, main.py's
`solve_seating` produces no assignment table at all — the infeasible
branch (lines 219-220) only prints and writes nothing. -/
theorem mainNoTableOnInfeasible (r : List Emp) (es : List Nat) :
    mainSolveSeating r es none = none := rfl

/-- C5 counterexample: app.py's `solve_seating` (lines 69-88) on an
infeasible outcome returns an ordinary empty table — `seating_plan`
stays `[]` and `pd.DataFrame(seating_plan)` is returned unconditionally —
so no `NoFeasibleSolutionError` (a name appearing nowhere in the code)
or any other failure is reported to the caller. -/
theorem appInfeasibleReturnsTable :
    appSolveSeating FLOORS [⟨1, "A"⟩] [1] none = [] := rfl

/-- C6 (amended): no input validation exists — for every roster, rosters
with duplicated ids or empty department labels included, the solve
produces a table exactly when the solver outcome is feasible and the
employee list is nonempty.  The empty roster does fail, but only after a
trivially successful solve, with the pandas `KeyError` of sorting the
columnless empty table (main.py line 216) — never with a pre-model
`InvalidInputError`, a class that appears nowhere in the code. -/
theorem mainSolveNoValidation (r : List Emp) (es : List Nat) (outcome : Option Solution) :
    (mainSolveSeating r es outcome).isSome = (outcome.isSome && !es.isEmpty) := by
  cases outcome <;> cases es <;> rfl

/-- C6 counterexample: on a roster with a duplicated employee id — input
the spec says must fail with `InvalidInputError` before model
construction — main.py's pipeline raises nothing (no such exception
class exists in the code), builds a feasible model and returns a
complete table with the id appearing twice. -/
theorem mainAcceptsInvalidRoster :
    MainFeasible rosterDup [1, 1] solOff
    ∧ mainSolveSeating rosterDup [1, 1] (some solOff) =
        some [{ id := 1, dept := "A", assignedFloor := .offsite,
                assignedTable := none, assignedSeat := none },
              { id := 1, dept := "A", assignedFloor := .offsite,
                assignedTable := none, assignedSeat := none }] :=
  ⟨solOff_feasible_dup, by decide⟩

/-- C8 (amended): main.py's output table is sorted by department and then
id (lines 214-217), whatever the internal shuffled solve order was. -/
theorem mainRowsSorted (r : List Emp) (es : List Nat) (s : Solution) :
    List.Sorted rowLE (mainSolveRows r es s) :=
  List.sorted_insertionSort rowLE (es.map (mainDecodeRow r s))

/-- C8 counterexample: a feasible app.py solve whose returned table is
not sorted by (Department, ID): app.py never sorts, so the rows come out
in the internal solve order `[1, 2]`, here ("B", 1) before ("A", 2). -/
theorem appRowsUnsorted :
    AppFeasible FLOORS MAX_DEPT_PERCENT rosterB [1, 2] solOff
    ∧ ¬ List.Sorted appRowLE (appSolveSeating FLOORS rosterB [1, 2] (some solOff)) :=
  ⟨solOff_app_feasible_b, by decide⟩

/-- C1: for every feasible solve on a duplicate-free roster, the decoded
assignment is total and unambiguous — the table has one row per roster
employee, each roster id appears in exactly one row, and every row is
either on a configured floor with a seat in that floor's range or
offsite with no seat, never neither and never both. -/
theorem mainAssignmentTotal (r : List Emp) (es : List Nat) (s : Solution)
    (hnd : (r.map Emp.id).Nodup) (hperm : es.Perm (r.map Emp.id))
    (hf : MainFeasible r es s) :
    (mainSolveRows r es s).length = r.length
    ∧ (∀ e ∈ r.map Emp.id, ((mainSolveRows r es s).countP fun row => row.id == e) = 1)
    ∧ ∀ row ∈ mainSolveRows r es s,
        (∃ fp ∈ FLOORS, row.assignedFloor = .onFloor fp.1
          ∧ ∃ n, row.assignedSeat = some n ∧ 1 ≤ n ∧ n ≤ fp.2)
        ∨ (row.assignedFloor = .offsite ∧ row.assignedSeat = none) := by
  refine ⟨?_, ?_, ?_⟩
  · unfold mainSolveRows
    rw [(List.perm_insertionSort rowLE _).length_eq, List.length_map, hperm.length_eq,
      List.length_map]
  · intro e he
    unfold mainSolveRows
    rw [(List.perm_insertionSort rowLE _).countP_eq, List.countP_map]
    have hcomp : ((fun row => row.id == e) ∘ mainDecodeRow r s) = fun x => x == e := by
      funext x
      simp [Function.comp, mainDecodeRow_id]
    rw [hcomp, hperm.countP_eq, ← List.count_eq_countP]
    exact List.count_eq_one_of_mem hnd he
  · intro row hrow
    rcases mem_mainSolveRows.1 hrow with ⟨e, he, rfl⟩
    cases hoff : s.empOffsite e with
    | true =>
      right
      rw [mainDecode_offsite hoff]
      exact ⟨rfl, rfl⟩
    | false =>
      left
      rcases mainDecode_onFloor hf he hoff with ⟨fp, hfpmem, hfp, huniq, hdec⟩
      rcases mainSeat_spec hf he hfpmem hfp with ⟨h1, h2, h3⟩
      refine ⟨fp, hfpmem, ?_, ⟨s.empSeat e fp.1, ?_, h1, h2⟩⟩
      · rw [hdec]
      · rw [hdec]

/-- Witness instantiating C1's theorem on the concrete feasible solve of
`rosterA` by `solA`. -/
theorem mainAssignmentTotal_witness :
    ((rosterA.map Emp.id).Nodup ∧ [1, 2].Perm (rosterA.map Emp.id)
      ∧ MainFeasible rosterA [1, 2] solA)
    ∧ ((mainSolveRows rosterA [1, 2] solA).length = rosterA.length
      ∧ (∀ e ∈ rosterA.map Emp.id,
          ((mainSolveRows rosterA [1, 2] solA).countP fun row => row.id == e) = 1)
      ∧ ∀ row ∈ mainSolveRows rosterA [1, 2] solA,
          (∃ fp ∈ FLOORS, row.assignedFloor = .onFloor fp.1
            ∧ ∃ n, row.assignedSeat = some n ∧ 1 ≤ n ∧ n ≤ fp.2)
          ∨ (row.assignedFloor = .offsite ∧ row.assignedSeat = none)) :=
  ⟨⟨by decide, by decide, solA_feasible⟩,
    mainAssignmentTotal rosterA [1, 2] solA (by decide) (by decide) solA_feasible⟩

/-- C9: for every feasible solve, every seated row of main.py's output
carries the table number `((seat - 1) / 6) + 1` computed from its seat
(table size `SEATS_PER_TABLE = 6`), and every offsite row carries no
table and no seat value. -/
theorem mainTableDerivation (r : List Emp) (es : List Nat) (s : Solution)
    (hf : MainFeasible r es s) :
    ∀ row ∈ mainSolveRows r es s,
      (∀ fId, row.assignedFloor = .onFloor fId →
        ∃ n, row.assignedSeat = some n ∧ 1 ≤ n
          ∧ row.assignedTable = some ((((n - 1) / SEATS_PER_TABLE : Nat) : Int) + 1))
      ∧ (row.assignedFloor = .offsite →
          row.assignedTable = none ∧ row.assignedSeat = none) := by
  intro row hrow
  rcases mem_mainSolveRows.1 hrow with ⟨e, he, rfl⟩
  cases hoff : s.empOffsite e with
  | true =>
    rw [mainDecode_offsite hoff]
    exact ⟨fun fId hcontra => (nomatch hcontra), fun _ => ⟨rfl, rfl⟩⟩
  | false =>
    rcases mainDecode_onFloor hf he hoff with ⟨fp, hfpmem, hfp, huniq, hdec⟩
    rcases mainSeat_spec hf he hfpmem hfp with ⟨h1, h2, h3⟩
    rw [hdec]
    refine ⟨fun fId _ => ⟨s.empSeat e fp.1, rfl, h1, ?_⟩, fun hcontra => (nomatch hcontra)⟩
    rw [tableIndex_eq h1]

/-- Witness instantiating C9's theorem on the concrete feasible solve of
`rosterA` by `solA`. -/
theorem mainTableDerivation_witness :
    MainFeasible rosterA [1, 2] solA
    ∧ ∀ row ∈ mainSolveRows rosterA [1, 2] solA,
        (∀ fId, row.assignedFloor = .onFloor fId →
          ∃ n, row.assignedSeat = some n ∧ 1 ≤ n
            ∧ row.assignedTable = some ((((n - 1) / SEATS_PER_TABLE : Nat) : Int) + 1))
        ∧ (row.assignedFloor = .offsite →
            row.assignedTable = none ∧ row.assignedSeat = none) :=
  ⟨solA_feasible, mainTableDerivation rosterA [1, 2] solA solA_feasible⟩

/-- C9 counterexample: a feasible app.py solve with a seated employee
whose output — the rows transcribed field for field from the dict
literal of app.py lines 82-87 — consists of `ID`, `Department`,
`Assigned_Floor` and `Assigned_Seat` only: the seated row for
employee 1 (floor 1, seat 1) contains no `Assigned_Table` value,
because app.py's decode never computes one. -/
theorem appRowsHaveNoTable :
    AppFeasible FLOORS MAX_DEPT_PERCENT rosterA [1, 2] solA
    ∧ appSolveSeating FLOORS rosterA [1, 2] (some solA) =
        [{ id := 1, dept := "A", assignedFloor := .onFloor 1, assignedSeat := some 1 },
         { id := 2, dept := "A", assignedFloor := .offsite, assignedSeat := none }] :=
  ⟨solA_feasible, by decide⟩

/-- C10: with app.py's `floors` and `max_dept_percent` parameters
instantiated at main.py's constants, the two `solve_seating` bodies
build the same model over the same decision variables: the transcribed
constraint conjunctions coincide, the objectives coincide, and therefore
the feasible and the objective-optimal valuations coincide. -/
theorem modelsAgree :
    (∀ (r : List Emp) (es : List Nat) (s : Solution),
        AppFeasible FLOORS MAX_DEPT_PERCENT r es s ↔ MainFeasible r es s)
    ∧ (∀ (es : List Nat) (s : Solution), appObjective FLOORS es s = mainObjective es s)
    ∧ ∀ (r : List Emp) (es : List Nat) (s : Solution),
        (AppFeasible FLOORS MAX_DEPT_PERCENT r es s
          ∧ ∀ s2 : Solution, AppFeasible FLOORS MAX_DEPT_PERCENT r es s2 →
              appObjective FLOORS es s2 ≤ appObjective FLOORS es s)
        ↔ (MainFeasible r es s
          ∧ ∀ s2 : Solution, MainFeasible r es s2 →
              mainObjective es s2 ≤ mainObjective es s) :=
  ⟨fun _ _ _ => Iff.rfl, fun _ _ => rfl, fun _ _ _ => Iff.rfl⟩

/-- C2: for every feasible solve on a duplicate-free roster, no two
output rows of main.py's table occupy the same (floor, seat) pair —
pairwise, two rows can never both claim floor `fId` and seat `n`. -/
theorem mainSeatExclusiveRows (r : List Emp) (es : List Nat) (s : Solution)
    (hnd : (r.map Emp.id).Nodup) (hperm : es.Perm (r.map Emp.id))
    (hf : MainFeasible r es s) :
    (mainSolveRows r es s).Pairwise fun a b =>
      ∀ fId n, a.assignedFloor = .onFloor fId → b.assignedFloor = .onFloor fId →
        a.assignedSeat = some n → b.assignedSeat = some n → False := by
  have hes : es.Nodup := hperm.nodup_iff.2 hnd
  have hsym : ∀ {x y : Row},
      (∀ fId n, x.assignedFloor = .onFloor fId → y.assignedFloor = .onFloor fId →
        x.assignedSeat = some n → y.assignedSeat = some n → False) →
      (∀ fId n, y.assignedFloor = .onFloor fId → x.assignedFloor = .onFloor fId →
        y.assignedSeat = some n → x.assignedSeat = some n → False) :=
    fun h fId n h1 h2 h3 h4 => h fId n h2 h1 h4 h3
  unfold mainSolveRows
  rw [List.Perm.pairwise_iff hsym (List.perm_insertionSort rowLE _)]
  rw [List.pairwise_map]
  refine List.Pairwise.imp_of_mem ?_ hes
  intro e1 e2 he1 he2 hne fId n ha hb hsa hsb
  cases hoff1 : s.empOffsite e1 with
  | true =>
    rw [mainDecode_offsite hoff1] at ha
    exact (nomatch ha)
  | false =>
    rcases mainDecode_onFloor hf he1 hoff1 with ⟨fp1, hm1, hb1, hu1, hd1⟩
    rw [hd1] at ha hsa
    cases hoff2 : s.empOffsite e2 with
    | true =>
      rw [mainDecode_offsite hoff2] at hb
      exact (nomatch hb)
    | false =>
      rcases mainDecode_onFloor hf he2 hoff2 with ⟨fp2, hm2, hb2, hu2, hd2⟩
      rw [hd2] at hb hsb
      simp only [FloorAssign.onFloor.injEq, Option.some.injEq] at ha hb hsa hsb
      have hfp12 : fp1 = fp2 := floors_key_inj fp1 hm1 fp2 hm2 (by rw [ha, hb])
      rcases mainSeat_spec hf he1 hm1 hb1 with ⟨h1a, h2a, h3a⟩
      rcases mainSeat_spec hf he2 hm2 hb2 with ⟨h1b, h2b, h3b⟩
      rw [hsa] at h1a h2a h3a
      rw [hsb] at h1b h2b h3b
      rw [hfp12] at h2a h3a
      obtain ⟨hdom, hone, hlink, hcap, hexcl, hdept, hcoh, hons⟩ := hf
      have hx := hexcl fp2 hm2 n (mem_seats.2 ⟨h1a, h2a⟩)
      have h2sum : 2 ≤ (es.map fun z => (s.empSeatBool z fp2.1 n).toNat).sum := by
        simpa using two_le_sum_toNat (b := fun z => s.empSeatBool z fp2.1 n) he1 he2 hne h3a h3b
      omega

/-- Witness instantiating C2's theorem on the concrete feasible solve of
`rosterA` by `solA`. -/
theorem mainSeatExclusiveRows_witness :
    MainFeasible rosterA [1, 2] solA
    ∧ (mainSolveRows rosterA [1, 2] solA).Pairwise fun a b =>
        ∀ fId n, a.assignedFloor = .onFloor fId → b.assignedFloor = .onFloor fId →
          a.assignedSeat = some n → b.assignedSeat = some n → False :=
  ⟨solA_feasible,
    mainSeatExclusiveRows rosterA [1, 2] solA (by decide) (by decide) solA_feasible⟩

/-- C3: for every feasible solve on a duplicate-free roster, an on-site
department never spans two floors in main.py's output — whenever a row
of department `d` sits on floor `fId`, every row of the same department
is offsite or on that same floor. -/
theorem mainCohesionRows (r : List Emp) (es : List Nat) (s : Solution)
    (hnd : (r.map Emp.id).Nodup) (hperm : es.Perm (r.map Emp.id))
    (hf : MainFeasible r es s) :
    ∀ a ∈ mainSolveRows r es s, ∀ b ∈ mainSolveRows r es s, a.dept = b.dept →
      ∀ fId, a.assignedFloor = .onFloor fId →
        b.assignedFloor = .offsite ∨ b.assignedFloor = .onFloor fId := by
  intro a ha b hb hdept fId hafl
  rcases mem_mainSolveRows.1 ha with ⟨e, he, rfl⟩
  rcases mem_mainSolveRows.1 hb with ⟨m, hm, rfl⟩
  cases hoffe : s.empOffsite e with
  | true =>
    rw [mainDecode_offsite hoffe] at hafl
    exact (nomatch hafl)
  | false =>
    rcases mainDecode_onFloor hf he hoffe with ⟨fp, hfpmem, hfp, hufe, hde⟩
    rw [hde] at hafl
    simp only [FloorAssign.onFloor.injEq] at hafl
    cases hoffm : s.empOffsite m with
    | true =>
      left
      rw [mainDecode_offsite hoffm]
    | false =>
      right
      rcases mainDecode_onFloor hf hm hoffm with ⟨fq, hfqmem, hfq, hufm, hdm⟩
      rw [hdm]
      by_cases hem : m = e
      · subst hem
        have hpq : fp = fq := hufm fp hfpmem hfp
        simp only [FloorAssign.onFloor.injEq]
        rw [← hpq, hafl]
      · have hemem : e ∈ r.map Emp.id := hperm.mem_iff.1 he
        have hmmem : m ∈ r.map Emp.id := hperm.mem_iff.1 hm
        rcases List.mem_map.1 hemem with ⟨x, hx, hxid⟩
        rcases List.mem_map.1 hmmem with ⟨y, hy, hyid⟩
        have hdx : lookupDept r e = x.dept := by
          rw [← hxid]
          exact lookupDept_eq hnd hx
        have hdy : lookupDept r m = y.dept := by
          rw [← hyid]
          exact lookupDept_eq hnd hy
        have hdxy : x.dept = y.dept := by
          rw [mainDecodeRow_dept r s e, mainDecodeRow_dept r s m, hdx, hdy] at hdept
          exact hdept
        have hdlab : x.dept ∈ deptLabels r := List.mem_map_of_mem Emp.dept hx
        have hememb : e ∈ deptMembers r x.dept := by
          refine List.mem_map.2 ⟨x, ?_, hxid⟩
          exact List.mem_filter.2 ⟨hx, by simp⟩
        have hmmemb : m ∈ deptMembers r x.dept := by
          refine List.mem_map.2 ⟨y, ?_, hyid⟩
          exact List.mem_filter.2 ⟨hy, by simp [hdxy]⟩
        have hc := hf.2.2.2.2.2.2.1 x.dept hdlab fp hfpmem e hememb m hmmemb hem
        rw [hfp, hoffm] at hc
        simp only [Bool.toNat_true, Bool.toNat_false, Nat.zero_add] at hc
        have hflm : s.empFloor m fp.1 = true := by
          cases hcontra : s.empFloor m fp.1
          · rw [hcontra] at hc
            simp at hc
          · rfl
        have hpq : fp = fq := hufm fp hfpmem hflm
        simp only [FloorAssign.onFloor.injEq]
        rw [← hpq, hafl]

/-- Witness instantiating C3's theorem on the concrete feasible solve of
`rosterA` by `solA`. -/
theorem mainCohesionRows_witness :
    MainFeasible rosterA [1, 2] solA
    ∧ ∀ a ∈ mainSolveRows rosterA [1, 2] solA, ∀ b ∈ mainSolveRows rosterA [1, 2] solA,
        a.dept = b.dept → ∀ fId, a.assignedFloor = .onFloor fId →
          b.assignedFloor = .offsite ∨ b.assignedFloor = .onFloor fId :=
  ⟨solA_feasible, mainCohesionRows rosterA [1, 2] solA (by decide) (by decide) solA_feasible⟩

/-- C4: for every feasible solve on a duplicate-free roster and every
department label, the number of rows of that department seated on any
physical floor is at most `int(MAX_DEPT_PERCENT * department_size)`,
the truncated product with the 0.6 default. -/
theorem mainDeptCapRows (r : List Emp) (es : List Nat) (s : Solution)
    (hnd : (r.map Emp.id).Nodup) (hperm : es.Perm (r.map Emp.id))
    (hf : MainFeasible r es s) :
    ∀ d ∈ deptLabels r,
      ((mainSolveRows r es s).countP fun row =>
          row.dept == d && decide (row.assignedFloor ≠ FloorAssign.offsite))
        ≤ maxOnSite MAX_DEPT_PERCENT (deptMembers r d).length := by
  intro d hd
  have hone := hf.2.1
  have hcap := hf.2.2.2.2.2.1 d hd
  unfold mainSolveRows
  rw [(List.perm_insertionSort rowLE _).countP_eq, List.countP_map, hperm.countP_eq,
    List.countP_map]
  have hstep1 : List.countP
      (((fun row => row.dept == d && decide (row.assignedFloor ≠ FloorAssign.offsite))
        ∘ mainDecodeRow r s) ∘ Emp.id) r
      = List.countP (fun x =>
          decide ((mainDecodeRow r s x.id).assignedFloor ≠ FloorAssign.offsite)
          && (x.dept == d)) r := by
    apply List.countP_congr
    intro x hx
    simp only [Function.comp_apply, mainDecodeRow_dept, lookupDept_eq hnd hx,
      Bool.and_comm]
  rw [hstep1, ← List.countP_filter]
  have hbound := countP_le_sum (r.filter fun x => x.dept == d)
    (fun x => decide ((mainDecodeRow r s x.id).assignedFloor ≠ FloorAssign.offsite))
    (fun x => (FLOORS.map fun f => (s.empFloor x.id f.1).toNat).sum) ?hg
  case hg =>
    intro x hx hpx
    have hpx2 : (mainDecodeRow r s x.id).assignedFloor ≠ FloorAssign.offsite :=
      of_decide_eq_true hpx
    have hxr : x ∈ r := (List.mem_filter.1 hx).1
    have hxes : x.id ∈ es := hperm.mem_iff.2 (List.mem_map_of_mem Emp.id hxr)
    have h1 := hone x.id hxes
    show 1 ≤ (FLOORS.map fun f => (s.empFloor x.id f.1).toNat).sum
    cases hoffx : s.empOffsite x.id with
    | true =>
      rw [mainDecode_offsite hoffx] at hpx2
      exact absurd rfl hpx2
    | false =>
      rw [hoffx] at h1
      simp only [Bool.toNat_false, Nat.add_zero] at h1
      omega
  refine le_trans hbound ?_
  have hsums : ((r.filter fun x => x.dept == d).map
        fun x => (FLOORS.map fun f => (s.empFloor x.id f.1).toNat).sum).sum
      = ((deptMembers r d).map
        fun e => (FLOORS.map fun f => (s.empFloor e f.1).toNat).sum).sum := by
    unfold deptMembers
    rw [List.map_map]
    rfl
  rw [hsums]
  exact hcap

/-- Witness instantiating C4's theorem on the concrete feasible solve of
`rosterA` by `solA`. -/
theorem mainDeptCapRows_witness :
    MainFeasible rosterA [1, 2] solA
    ∧ ∀ d ∈ deptLabels rosterA,
        ((mainSolveRows rosterA [1, 2] solA).countP fun row =>
            row.dept == d && decide (row.assignedFloor ≠ FloorAssign.offsite))
          ≤ maxOnSite MAX_DEPT_PERCENT (deptMembers rosterA d).length :=
  ⟨solA_feasible, mainDeptCapRows rosterA [1, 2] solA (by decide) (by decide) solA_feasible⟩
